import Mathlib

/-!
Verification development for the NeurIPS papers crawler
(single source file `code/getdata.py`).

The Python code is shallowly embedded: strings are `List Char`,
Python string operations (`split`, `rsplit`, `replace`, `strip`,
whitespace `split()`, `" ".join`) are executable Lean functions,
HTTP responses are explicit data, and the filesystem effect of the
orchestrator is the list of file paths it writes.
-/

/-- Python whitespace characters recognised by `str.split()`
(ASCII fragment: space, tab, newline, carriage return, vertical tab,
form feed). -/
def pyIsSpace (c : Char) : Bool :=
  c = ' ' || c = '\t' || c = '\n' || c = '\r' ||
  c = Char.ofNat 11 || c = Char.ofNat 12

/-- ASCII decimal digit test. -/
def isDigitC (c : Char) : Bool :=
  '0' ≤ c && c ≤ '9'

/-- Lowercase hexadecimal digit test (the alphabet of the hash ids used
by the proceedings site). -/
def isHexLower (c : Char) : Bool :=
  isDigitC c || ('a' ≤ c && c ≤ 'f')

/-- Python `s.split(sep)` for a one-character separator `sep`:
splits at every occurrence, keeping empty segments
(`"a//b".split("/") == ["a", "", "b"]`).  Never returns an empty list.
Embeds the `paper_temp_url.split("/")` and `.split("-")` calls of
`get_paper_paths`. -/
def splitChar (sep : Char) : List Char → List (List Char)
  | [] => [[]]
  | c :: cs =>
    if c = sep then [] :: splitChar sep cs
    else
      match splitChar sep cs with
      | [] => [[c]]
      | t :: ts => (c :: t) :: ts

/-- Python `s.rsplit(sep, 1)[0]` for a one-character separator:
everything strictly before the last occurrence of `sep`, or the whole
string when `sep` does not occur.  Embeds
`paper_temp_url.rsplit('.', 1)[0]` of `get_paper_paths`. -/
def rsplitBeforeLast (sep : Char) (s : List Char) : List Char :=
  match List.dropWhile (fun x => !(x = sep)) s.reverse with
  | [] => s
  | _ :: rest => rest.reverse

/-- Fuelled worker for Python `str.replace`: scans left to right and
replaces each non-overlapping occurrence of `old` by `new`.  The fuel
argument only makes the recursion structural; `s.length` fuel is always
enough because every step consumes at least one character. -/
def replFuel (old new : List Char) : Nat → List Char → List Char
  | _, [] => []
  | 0, s => s
  | f + 1, c :: cs =>
    if List.isPrefixOf old (c :: cs) && !(List.isEmpty old) then
      new ++ replFuel old new f (List.drop (old.length - 1) cs)
    else
      c :: replFuel old new f cs

/-- Python `s.replace(old, new)` (for nonempty `old`, the only way the
crawler calls it): replace every non-overlapping occurrence of `old` by
`new`, scanning left to right. -/
def pyReplace (old new s : List Char) : List Char :=
  replFuel old new s.length s

/-- Boolean substring test: `containsSub s pat` holds iff `pat` occurs
contiguously inside `s`. -/
def containsSub (pat : List Char) : List Char → Bool
  | [] => List.isEmpty pat
  | c :: cs => List.isPrefixOf pat (c :: cs) || containsSub pat cs

/-- `endsWithL s pat`: `s` ends with the suffix `pat`. -/
def endsWithL (s pat : List Char) : Bool :=
  List.isPrefixOf pat.reverse s.reverse

/-- Longest common prefix of two strings. -/
def commonPrefix : List Char → List Char → List Char
  | a :: as, b :: bs => if a = b then a :: commonPrefix as bs else []
  | _, _ => []

/-- Fuelled worker for Python `str.split()` (split on whitespace runs,
dropping empty tokens).  Fuel `s.length` always suffices: every emitted
token consumes at least one character. -/
def splitWsF : Nat → List Char → List (List Char)
  | 0, _ => []
  | f + 1, s =>
    match List.dropWhile pyIsSpace s with
    | [] => []
    | c :: cs =>
      (c :: List.takeWhile (fun x => !(pyIsSpace x)) cs) ::
        splitWsF f (List.dropWhile (fun x => !(pyIsSpace x)) cs)

/-- Python `s.split()`: tokens separated by whitespace runs, with no
empty tokens. -/
def pySplitWs (s : List Char) : List (List Char) :=
  splitWsF s.length s

/-- Python `" ".join(tokens)`. -/
def joinSp : List (List Char) → List Char
  | [] => []
  | [t] => t
  | t :: ts => t ++ ' ' :: joinSp ts

/-- The whitespace collapsing applied to abstract text in
`get_abstract`: `" ".join(text.split())`. -/
def collapseWs (s : List Char) : List Char :=
  joinSp (pySplitWs s)

/-! ## The Link Deriver (`get_paper_paths`) -/

/-- The module-level constant `base_url = "https://papers.nips.cc"`. -/
def base_url : List Char :=
  "https://papers.nips.cc".toList

/-- One paper entry of the parallel result sequences built by
`get_paper_paths`: identifier plus the three derived resource URLs. -/
structure PaperRecord where
  paper_id : List Char
  abstract_url : List Char
  metadata_url : List Char
  pdf_url : List Char
deriving DecidableEq

/-- The per-anchor body of the loop in `get_paper_paths`
(lines 62 to 71 of `getdata.py`), for one anchor href
`paper_temp_url`:
`paper_id  = href.split("/")[-1].split("-")[0]`,
`abstract  = base_url + href`,
`paper_base = base_url + href.rsplit('.', 1)[0]`,
`metadata  = paper_base.replace('Abstract', 'Metadata').replace('hash', 'file') + ".json"`,
`pdf       = paper_base.replace('Abstract', 'Paper').replace('hash', 'file') + ".pdf"`.
List indexing `[-1]` and `[0]` is total here because `split` never
returns an empty list; the `getLastD`/`headD` defaults are never
reached. -/
def derivePaper (href : List Char) : PaperRecord :=
  let paper_id := List.headD (splitChar '-' (List.getLastD (splitChar '/' href) [])) []
  let paper_base := base_url ++ rsplitBeforeLast '.' href
  { paper_id := paper_id
    abstract_url := base_url ++ href
    metadata_url :=
      pyReplace "hash".toList "file".toList
        (pyReplace "Abstract".toList "Metadata".toList paper_base) ++ ".json".toList
    pdf_url :=
      pyReplace "hash".toList "file".toList
        (pyReplace "Abstract".toList "Paper".toList paper_base) ++ ".pdf".toList }

/-- `get_paper_paths` over the anchors of a listing page: the four
index-aligned parallel lists the Python function returns. -/
def get_paper_paths (hrefs : List (List Char)) :
    List (List Char) × List (List Char) × List (List Char) × List (List Char) :=
  (hrefs.map (fun h => (derivePaper h).paper_id),
   hrefs.map (fun h => (derivePaper h).abstract_url),
   hrefs.map (fun h => (derivePaper h).metadata_url),
   hrefs.map (fun h => (derivePaper h).pdf_url))

/-- The shape of a well-formed listing-page anchor href on the
proceedings site: `/paper/<year>/hash/<id>-Abstract.html`.  The claims
about the Link Deriver are settled over this shape with `year` a digit
string and `id` a lowercase-hex string. -/
def wellFormedHref (y id : List Char) : List Char :=
  "/paper/".toList ++ y ++ "/hash/".toList ++ id ++ "-Abstract.html".toList

/-! ## The abstract fetcher (`get_abstract`) -/

/-- The Python values `get_abstract` can produce or that the claims
compare them with: strings, lists, and dicts (as returned by the
function and consumed by `json.dump`). -/
inductive PyVal where
  | pyStr (s : List Char)
  | pyList (xs : List PyVal)
  | pyDict (entries : List (List Char × PyVal))

/-- A successfully parsed abstract page, as seen through the HTML
parser (the parser itself is an external collaborator): the HTTP
status, the `citation_title` meta content, the ordered
`citation_author` meta contents, and the raw text of the paragraph
following the heading labelled Abstract. -/
structure AbstractPage where
  status : Nat
  citationTitle : List Char
  citationAuthors : List (List Char)
  abstractParagraph : List Char

/-- `get_abstract` (lines 91 to 104): on a non-200 status it returns
the empty string `""`; on 200 it returns the dict
`{'title': ..., 'authors': [...], 'abstract': collapsed text}`. -/
def get_abstract (p : AbstractPage) : PyVal :=
  if p.status ≠ 200 then PyVal.pyStr []
  else
    PyVal.pyDict
      [("title".toList, PyVal.pyStr p.citationTitle),
       ("authors".toList, PyVal.pyList (p.citationAuthors.map PyVal.pyStr)),
       ("abstract".toList, PyVal.pyStr (collapseWs p.abstractParagraph))]

/-- First character of the `json.dump` serialization of a value:
strings serialize starting with a double quote, lists with a square
bracket, dicts with a curly bracket. -/
def jsonHeadChar : PyVal → Char
  | PyVal.pyStr _ => '"'
  | PyVal.pyList _ => '['
  | PyVal.pyDict _ => Char.ofNat 123

/-! ## The PDF fetcher (`get_pdf`) -/

/-- Outcome of the `requests.get(pdf_path)` call: either the request
itself raised (network error), or a response arrived with a status and
a byte body. -/
inductive PdfFetch where
  | netError
  | resp (status : Nat) (content : List Nat)
deriving DecidableEq

/-- `response.raise_for_status()` of the requests library raises
exactly for client and server error statuses, 400 ≤ status < 600. -/
def raiseForStatus (status : Nat) : Bool :=
  decide (400 ≤ status) && decide (status < 600)

/-- `get_pdf` (lines 81 to 88): any exception (network failure or the
`raise_for_status` error) is caught and turned into `None`; otherwise
the raw byte content is returned. -/
def get_pdf : PdfFetch → Option (List Nat)
  | PdfFetch.netError => none
  | PdfFetch.resp status content =>
    if raiseForStatus status then none else some content

/-- The failure condition under which `get_pdf` returns `None`,
read off the code: the request raised, or the status is 4xx/5xx. -/
def pdfFetchFailed : PdfFetch → Bool
  | PdfFetch.netError => true
  | PdfFetch.resp status _ => raiseForStatus status

/-- The failure condition as the claim words it: network error or
non-2xx status. -/
def claimPdfFailure : PdfFetch → Bool
  | PdfFetch.netError => true
  | PdfFetch.resp status _ => !(decide (200 ≤ status) && decide (status < 300))

/-- The unguarded `f.write(pdf)` of `main` (line 170): writing `None`
as raw bytes raises a `TypeError` instead of producing byte output. -/
def pdfWrite : Option (List Nat) → Except Unit (List Nat)
  | none => Except.error ()
  | some b => Except.ok b

/-! ## The Year Resolver (`get_latest_conference_year`) -/

/-- Numeric value of a list of decimal digit characters,
most significant first. -/
def digitsToNat (s : List Char) : Nat :=
  s.foldl (fun n c => n * 10 + (c.toNat - '0'.toNat)) 0

/-- The digit strings Python `int` accepts after the optional sign
(ASCII fragment): nonempty, beginning and ending with a digit, single
underscores allowed only between digits. -/
def validU : List Char → Bool
  | [] => false
  | [c] => isDigitC c
  | c :: '_' :: rest => isDigitC c && validU rest
  | c :: d :: rest => isDigitC c && validU (d :: rest)

/-- Python `int(s)` on a sign-free token. -/
def pyIntNoSign (s : List Char) : Option Int :=
  if validU s then some (Int.ofNat (digitsToNat (s.filter isDigitC))) else none

/-- Python `int(s)` on a whitespace-free token: optional single sign,
then digits (with underscore grouping); `none` models `ValueError`. -/
def pyInt : List Char → Option Int
  | '+' :: rest => pyIntNoSign rest
  | '-' :: rest => (pyIntNoSign rest).map (fun n => -n)
  | s => pyIntNoSign s

/-- Python `s.strip('()')`: remove every leading and trailing
parenthesis character. -/
def stripParens (s : List Char) : List Char :=
  (List.dropWhile (fun c => c = '(' || c = ')')
    (List.dropWhile (fun c => c = '(' || c = ')') s).reverse).reverse

/-- Per-item body of the loop in `get_latest_conference_year`
(lines 112 to 117): `int(item.text.split()[-1].strip('()'))`, with
`IndexError` (empty split) and `ValueError` (non-numeric token) both
caught and turned into a skip. -/
def parseYearItem (text : List Char) : Option Int :=
  match (pySplitWs text).getLast? with
  | none => none
  | some tok => pyInt (stripParens tok)

/-- Python `max` over a list, `none` for the empty list. -/
def pyMaxList : List Int → Option Int
  | [] => none
  | x :: xs => some (xs.foldl (fun a b => max a b) x)

/-- `get_latest_conference_year` (lines 106 to 119), over the text
contents of the list items found on the root page:
`max(years) if years else 2023`. -/
def get_latest_conference_year (items : List (List Char)) : Int :=
  match pyMaxList (items.filterMap parseYearItem) with
  | some m => m
  | none => 2023

/-! ## Argument checking and the orchestrator (`check_args`, `main`) -/

/-- `check_args` (lines 130 to 135): returns `true` exactly when the
function calls `sys.exit` (a fatal, nonzero termination).  Note: this
function is defined in the source but never called by `main`. -/
def check_args (start_year end_year : Int) : Bool :=
  decide (start_year < 1987) || decide (start_year > end_year)

/-- Decimal digit character for a value below ten. -/
def digitChar (d : Nat) : Char :=
  Char.ofNat (48 + d)

/-- Fuelled most-significant-last digit expansion of a positive
number. -/
def decDigitsF : Nat → Nat → List Char
  | 0, _ => []
  | _ + 1, 0 => []
  | f + 1, n => digitChar (n % 10) :: decDigitsF f (n / 10)

/-- Python `str(n)` for a natural number. -/
def natToChars (n : Nat) : List Char :=
  if n = 0 then ['0'] else (decDigitsF n n).reverse

/-- Python `str(i)` for an integer. -/
def intToChars (i : Int) : List Char :=
  if i < 0 then '-' :: natToChars (-i).toNat else natToChars i.toNat

/-- `os.path.join(a, b)` for POSIX paths: an absolute second component
replaces the first; otherwise the two are joined with a single slash. -/
def pyJoin (a b : List Char) : List Char :=
  if List.isPrefixOf ['/'] b then b
  else if a = [] then b
  else if a.getLast? = some '/' then a ++ b
  else a ++ '/' :: b

/-- The per-paper save directory of `main` (lines 148 and 156):
`os.path.join(os.path.join('../data', str(year)), paper_id)`.
The `--output_dir` argument is not consulted here; the year directory
root is the hardcoded relative path `'../data'`. -/
def saveDir (year : Int) (paper_id : List Char) : List Char :=
  pyJoin (pyJoin "../data".toList (intToChars year)) paper_id

/-- The three files `main` writes for one paper (lines 163 to 170), as
the list of their paths. -/
def paperWrites (year : Int) (paper_id : List Char) : List (List Char) :=
  [pyJoin (saveDir year paper_id) (paper_id ++ "_abstract.json".toList),
   pyJoin (saveDir year paper_id) (paper_id ++ "_metadata.json".toList),
   pyJoin (saveDir year paper_id) (paper_id ++ ".pdf".toList)]

/-- The inner per-paper loop of `main` (lines 152 to 172) over the
paper ids discovered for one year: because of the unconditional
`break` at the end of the loop body, only the first discovered paper
is archived. -/
def processYear (year : Int) : List (List Char) → List (List Char)
  | [] => []
  | pid :: _ => paperWrites year pid

/-- Python `range(s, e + 1)` over integers, as a list. -/
def yearRange (s e : Int) : List Int :=
  (List.range (e + 1 - s).toNat).map (fun i => s + i)

/-- The observable behaviour of `main` (lines 137 to 172), abstracted
over the environment: whether a directory exists and which paper ids
each listing page yields.  `none` models the `sys.exit` taken before
any download when the output directory is missing; otherwise the
result is the list of file paths written over the whole run.  `main`
never calls `check_args`, so no year validation appears here. -/
def mainRun (start_year end_year : Int) (output_dir : List Char)
    (dirExists : List Char → Bool) (listing : Int → List (List Char)) :
    Option (List (List Char)) :=
  if dirExists output_dir then
    some ((yearRange start_year end_year).flatMap (fun y => processYear y (listing y)))
  else none

/-! ## Lemmas about the embedded string operations -/

/-- Unfolding `List.isPrefixOf` one step on two cons cells. -/
theorem isPrefixOf_cons₂ (a b : Char) (as bs : List Char) :
    List.isPrefixOf (a :: as) (b :: bs) = (a == b && List.isPrefixOf as bs) :=
  rfl

/-- A list is a Boolean prefix of itself followed by anything. -/
theorem isPrefixOf_self_append (l t : List Char) :
    List.isPrefixOf l (l ++ t) = true := by
  induction l with
  | nil => simp [List.isPrefixOf]
  | cons x xs ih => simp [isPrefixOf_cons₂, ih]

/-- The fuel of `replFuel` is irrelevant once it covers the input
length. -/
theorem replFuel_congr (old new : List Char) :
    ∀ f g s, s.length ≤ f → s.length ≤ g →
      replFuel old new f s = replFuel old new g s := by
  intro f
  induction f with
  | zero =>
    intro g s hf _
    have hs : s = [] := List.eq_nil_of_length_eq_zero (Nat.le_zero.mp hf)
    subst hs
    cases g <;> rfl
  | succ f ih =>
    intro g s hf hg
    cases s with
    | nil => cases g <;> rfl
    | cons c cs =>
      cases g with
      | zero => simp at hg
      | succ g =>
        simp only [replFuel]
        have hcs : cs.length ≤ f := by simp at hf; omega
        have hcs' : cs.length ≤ g := by simp at hg; omega
        have hdrop : (List.drop (old.length - 1) cs).length ≤ cs.length := by
          simp [List.length_drop]
        split
        · rw [ih g (List.drop (old.length - 1) cs) (Nat.le_trans hdrop hcs)
            (Nat.le_trans hdrop hcs')]
        · rw [ih g cs hcs hcs']

/-- Recurrence of `pyReplace` on a cons cell, mirroring one scan step
of Python `str.replace`. -/
theorem pyReplace_cons (old new : List Char) (c : Char) (cs : List Char) :
    pyReplace old new (c :: cs) =
      if List.isPrefixOf old (c :: cs) && !(List.isEmpty old) then
        new ++ pyReplace old new (List.drop (old.length - 1) cs)
      else
        c :: pyReplace old new cs := by
  show replFuel old new (cs.length + 1) (c :: cs) = _
  simp only [replFuel]
  have hdrop : (List.drop (old.length - 1) cs).length ≤ cs.length := by
    simp [List.length_drop]
  split
  · rw [replFuel_congr old new cs.length (List.drop (old.length - 1) cs).length
      (List.drop (old.length - 1) cs) hdrop (Nat.le_refl _)]
    rfl
  · rfl

/-- A scan step that does not match `old` keeps the head character. -/
theorem pyReplace_cons_not_pre (old new : List Char) (c : Char) (cs : List Char)
    (h : List.isPrefixOf old (c :: cs) = false) :
    pyReplace old new (c :: cs) = c :: pyReplace old new cs := by
  rw [pyReplace_cons, h]
  simp

/-- `str.replace` passes over a region that does not contain the head
character of the pattern. -/
theorem pyReplace_append_left (h : Char) (o new a b : List Char) (ha : h ∉ a) :
    pyReplace (h :: o) new (a ++ b) = a ++ pyReplace (h :: o) new b := by
  induction a with
  | nil => rfl
  | cons x xs ih =>
    have hx : h ≠ x := fun hexact => ha (hexact ▸ List.mem_cons_self x xs)
    have hpre : List.isPrefixOf (h :: o) (x :: (xs ++ b)) = false := by
      rw [isPrefixOf_cons₂]
      simp [hx]
    rw [List.cons_append, pyReplace_cons_not_pre _ _ _ _ hpre,
      ih (fun hmem => ha (List.mem_cons_of_mem x hmem))]
    rfl

/-- `str.replace` substitutes an occurrence of the pattern sitting at
the front of the string. -/
theorem pyReplace_match (old new t : List Char) (hne : old ≠ []) :
    pyReplace old new (old ++ t) = new ++ pyReplace old new t := by
  cases old with
  | nil => exact absurd rfl hne
  | cons o os =>
    rw [List.cons_append, pyReplace_cons]
    have hpre : List.isPrefixOf (o :: os) (o :: (os ++ t)) = true := by
      rw [isPrefixOf_cons₂]
      simp [isPrefixOf_self_append]
    rw [hpre]
    simp only [List.isEmpty_cons, Bool.not_false, Bool.and_true, if_true]
    have : (o :: os).length - 1 = os.length := by simp
    rw [this, List.drop_left]

/-- `str.replace` is the identity on a string free of the head
character of the pattern. -/
theorem pyReplace_no_head (h : Char) (o new s : List Char) (hs : h ∉ s) :
    pyReplace (h :: o) new s = s := by
  have hstep := pyReplace_append_left h o new s [] hs
  have hnil : pyReplace (h :: o) new [] = [] := rfl
  rw [List.append_nil, hnil, List.append_nil] at hstep
  exact hstep

/-- `containsSub` holds when the pattern is a prefix. -/
theorem containsSub_of_pre (pat s : List Char)
    (h : List.isPrefixOf pat s = true) : containsSub pat s = true := by
  cases s with
  | nil =>
    cases pat with
    | nil => rfl
    | cons p ps => simp [List.isPrefixOf] at h
  | cons c cs => simp [containsSub, h]

/-- A pattern occurs in any string built around it. -/
theorem containsSub_append (pat a b : List Char) :
    containsSub pat (a ++ (pat ++ b)) = true := by
  induction a with
  | nil => exact containsSub_of_pre pat (pat ++ b) (isPrefixOf_self_append pat b)
  | cons x xs ih => simp [containsSub, ih]

/-- A string built by appending the pattern ends with it. -/
theorem endsWithL_append (a pat : List Char) :
    endsWithL (a ++ pat) pat = true := by
  unfold endsWithL
  rw [List.reverse_append]
  exact isPrefixOf_self_append pat.reverse a.reverse

/-- A shared leading block factors out of the longest common prefix. -/
theorem commonPrefix_append (c u v : List Char) :
    commonPrefix (c ++ u) (c ++ v) = c ++ commonPrefix u v := by
  induction c with
  | nil => rfl
  | cons x xs ih => simp [commonPrefix, ih]

/-- `splitChar` never returns the empty list (Python `split` always
yields at least one segment, so indexing `[-1]` and `[0]` is safe). -/
theorem splitChar_ne_nil (sep : Char) (s : List Char) :
    splitChar sep s ≠ [] := by
  induction s with
  | nil => simp [splitChar]
  | cons c cs ih =>
    simp only [splitChar]
    split
    · simp
    · split <;> simp

/-- A string without the separator splits into itself alone. -/
theorem splitChar_no_sep (sep : Char) (v : List Char) (hv : sep ∉ v) :
    splitChar sep v = [v] := by
  induction v with
  | nil => rfl
  | cons x xs ih =>
    have hx : ¬(x = sep) := fun h => hv (h ▸ List.mem_cons_self x xs)
    have hxs : sep ∉ xs := fun h => hv (List.mem_cons_of_mem x h)
    simp only [splitChar, if_neg hx, ih hxs]

/-- Unfolding `splitChar` when the head is the separator. -/
theorem splitChar_cons_sep (sep : Char) (v : List Char) :
    splitChar sep (sep :: v) = [] :: splitChar sep v := by
  simp [splitChar]

/-- Unfolding `splitChar` when the head is not the separator. -/
theorem splitChar_cons_ne (sep x : Char) (v : List Char) (hx : ¬(x = sep)) :
    splitChar sep (x :: v) =
      match splitChar sep v with
      | [] => [[x]]
      | t :: ts => (x :: t) :: ts := by
  simp [splitChar, hx]

/-- A split at a string containing the separator has at least two
segments. -/
theorem splitChar_two_le (sep : Char) (u v : List Char) :
    2 ≤ (splitChar sep (u ++ sep :: v)).length := by
  induction u with
  | nil =>
    rw [List.nil_append, splitChar_cons_sep]
    cases h : splitChar sep v with
    | nil => exact absurd h (splitChar_ne_nil sep v)
    | cons a l => simp
  | cons x u ih =>
    rw [List.cons_append]
    by_cases hx : x = sep
    · rw [hx, splitChar_cons_sep]
      cases h : splitChar sep (u ++ sep :: v) with
      | nil => exact absurd h (splitChar_ne_nil sep _)
      | cons a l => simp
    · rw [splitChar_cons_ne sep x _ hx]
      cases h : splitChar sep (u ++ sep :: v) with
      | nil => exact absurd h (splitChar_ne_nil sep _)
      | cons t ts =>
        rw [h] at ih
        simpa using ih

/-- The last segment of a split is untouched by everything before the
last separator occurrence. -/
theorem splitChar_getLast?_append (sep : Char) (u v : List Char) :
    (splitChar sep (u ++ sep :: v)).getLast? = (splitChar sep v).getLast? := by
  induction u with
  | nil =>
    rw [List.nil_append, splitChar_cons_sep]
    cases h : splitChar sep v with
    | nil => exact absurd h (splitChar_ne_nil sep v)
    | cons t ts => rw [List.getLast?_cons_cons]
  | cons x u ih =>
    rw [List.cons_append]
    by_cases hx : x = sep
    · rw [hx, splitChar_cons_sep]
      cases h : splitChar sep (u ++ sep :: v) with
      | nil => exact absurd h (splitChar_ne_nil sep _)
      | cons t ts =>
        have hstep : ([] :: t :: ts).getLast? = (t :: ts).getLast? :=
          List.getLast?_cons_cons
        rw [hstep, ← h]
        exact ih
    · rw [splitChar_cons_ne sep x _ hx]
      cases h : splitChar sep (u ++ sep :: v) with
      | nil => exact absurd h (splitChar_ne_nil sep _)
      | cons t ts =>
        have hts : ts ≠ [] := by
          have h2 := splitChar_two_le sep u v
          rw [h] at h2
          intro hnil
          rw [hnil] at h2
          simp at h2
        rw [h] at ih
        cases ts with
        | nil => exact absurd rfl hts
        | cons t2 ts2 =>
          rw [List.getLast?_cons_cons, ← ih, List.getLast?_cons_cons]

/-- The first segment of a split is the part before the first
separator occurrence. -/
theorem splitChar_headD_append (sep : Char) (a b : List Char) (ha : sep ∉ a) :
    List.headD (splitChar sep (a ++ sep :: b)) [] = a := by
  induction a with
  | nil =>
    rw [List.nil_append, splitChar_cons_sep]
    rfl
  | cons x xs ih =>
    have hx : ¬(x = sep) := fun h => ha (h ▸ List.mem_cons_self x xs)
    have hxs : sep ∉ xs := fun h => ha (List.mem_cons_of_mem x h)
    rw [List.cons_append, splitChar_cons_ne sep x _ hx]
    cases h : splitChar sep (xs ++ sep :: b) with
    | nil => exact absurd h (splitChar_ne_nil sep _)
    | cons t ts =>
      have hih := ih hxs
      rw [h] at hih
      simp only [List.headD] at hih ⊢
      rw [hih]

/-- `dropWhile` skips over a block whose elements all satisfy the
predicate. -/
theorem dropWhile_append_all (p : Char → Bool) (a b : List Char)
    (h : ∀ x ∈ a, p x = true) :
    List.dropWhile p (a ++ b) = List.dropWhile p b := by
  induction a with
  | nil => rfl
  | cons x xs ih =>
    rw [List.cons_append, List.dropWhile_cons_of_pos (h x (List.mem_cons_self x xs))]
    exact ih (fun y hy => h y (List.mem_cons_of_mem x hy))

/-- `takeWhile` keeps a whole block whose elements all satisfy the
predicate. -/
theorem takeWhile_append_all (p : Char → Bool) (a b : List Char)
    (h : ∀ x ∈ a, p x = true) :
    List.takeWhile p (a ++ b) = a ++ List.takeWhile p b := by
  induction a with
  | nil => rfl
  | cons x xs ih =>
    rw [List.cons_append, List.takeWhile_cons_of_pos (h x (List.mem_cons_self x xs)),
      ih (fun y hy => h y (List.mem_cons_of_mem x hy)), List.cons_append]

/-- `rsplit(sep, 1)[0]` cuts exactly at the last separator
occurrence. -/
theorem rsplitBeforeLast_append (sep : Char) (u v : List Char) (hv : sep ∉ v) :
    rsplitBeforeLast sep (u ++ sep :: v) = u := by
  unfold rsplitBeforeLast
  have hrev : (u ++ sep :: v).reverse = v.reverse ++ sep :: u.reverse := by
    rw [List.reverse_append, List.reverse_cons]
    simp
  rw [hrev, dropWhile_append_all _ v.reverse (sep :: u.reverse)
    (fun x hx => by
      have : x ∈ v := List.mem_reverse.mp hx
      have : ¬(x = sep) := fun h => hv (h ▸ this)
      simp [this]),
    List.dropWhile_cons_of_neg (by simp)]
  simp

/-- If `dropWhile` exposes a head, that head fails the predicate. -/
theorem dropWhile_head_false (p : Char → Bool) :
    ∀ (s : List Char) (c : Char) (cs : List Char),
      List.dropWhile p s = c :: cs → p c = false := by
  intro s
  induction s with
  | nil => intro c cs h; simp [List.dropWhile] at h
  | cons x xs ih =>
    intro c cs h
    by_cases hx : p x = true
    · rw [List.dropWhile_cons_of_pos hx] at h
      exact ih c cs h
    · rw [List.dropWhile_cons_of_neg hx] at h
      cases h
      exact Bool.eq_false_iff.mpr hx

/-- `dropWhile` never lengthens a list. -/
theorem dropWhile_len_le (p : Char → Bool) (l : List Char) :
    (List.dropWhile p l).length ≤ l.length := by
  induction l with
  | nil => simp [List.dropWhile]
  | cons x xs ih =>
    by_cases hx : p x = true
    · rw [List.dropWhile_cons_of_pos hx]
      exact Nat.le_trans ih (Nat.le_succ _)
    · rw [List.dropWhile_cons_of_neg hx]

/-- The fuel of `splitWsF` is irrelevant once it covers the input
length. -/
theorem splitWsF_congr :
    ∀ f g s, s.length ≤ f → s.length ≤ g → splitWsF f s = splitWsF g s := by
  intro f
  induction f with
  | zero =>
    intro g s hf _
    have hs : s = [] := List.eq_nil_of_length_eq_zero (Nat.le_zero.mp hf)
    subst hs
    cases g with
    | zero => rfl
    | succ g => simp [splitWsF, List.dropWhile]
  | succ f ih =>
    intro g s hf hg
    cases g with
    | zero =>
      have hs : s = [] := List.eq_nil_of_length_eq_zero (Nat.le_zero.mp hg)
      subst hs
      simp [splitWsF, List.dropWhile]
    | succ g =>
      cases h : List.dropWhile pyIsSpace s with
      | nil => simp only [splitWsF, h]
      | cons c cs =>
        simp only [splitWsF, h]
        have hlen : cs.length + 1 ≤ s.length := by
          have := dropWhile_len_le pyIsSpace s
          rw [h] at this
          simpa using this
        have hrest : (List.dropWhile (fun x => !(pyIsSpace x)) cs).length ≤ cs.length :=
          dropWhile_len_le _ cs
        rw [ih g (List.dropWhile (fun x => !(pyIsSpace x)) cs)
          (by omega) (by omega)]

/-- The recurrence of Python `split()`: skip a whitespace run, emit the
next maximal non-whitespace token, recurse on the remainder. -/
theorem pySplitWs_eq (s : List Char) :
    pySplitWs s =
      match List.dropWhile pyIsSpace s with
      | [] => []
      | c :: cs =>
        (c :: List.takeWhile (fun x => !(pyIsSpace x)) cs) ::
          pySplitWs (List.dropWhile (fun x => !(pyIsSpace x)) cs) := by
  unfold pySplitWs
  cases s with
  | nil => simp [splitWsF, List.dropWhile]
  | cons a as =>
    show splitWsF (as.length + 1) (a :: as) = _
    cases h : List.dropWhile pyIsSpace (a :: as) with
    | nil => simp only [splitWsF, h]
    | cons c cs =>
      simp only [splitWsF, h]
      have hlen : cs.length + 1 ≤ as.length + 1 := by
        have := dropWhile_len_le pyIsSpace (a :: as)
        rw [h] at this
        simpa using this
      have hrest : (List.dropWhile (fun x => !(pyIsSpace x)) cs).length ≤ cs.length :=
        dropWhile_len_le _ cs
      rw [splitWsF_congr as.length (List.dropWhile (fun x => !(pyIsSpace x)) cs).length
        (List.dropWhile (fun x => !(pyIsSpace x)) cs) (by omega) (Nat.le_refl _)]

/-- Every token produced by `split()` is nonempty and free of
whitespace. -/
theorem pySplitWs_tokens :
    ∀ (n : Nat) (s : List Char), s.length ≤ n →
      ∀ t ∈ pySplitWs s, t ≠ [] ∧ ∀ c ∈ t, pyIsSpace c = false := by
  intro n
  induction n with
  | zero =>
    intro s hs t ht
    have : s = [] := List.eq_nil_of_length_eq_zero (Nat.le_zero.mp hs)
    subst this
    simp [pySplitWs, splitWsF] at ht
  | succ n ih =>
    intro s hs t ht
    rw [pySplitWs_eq] at ht
    cases h : List.dropWhile pyIsSpace s with
    | nil => rw [h] at ht; simp at ht
    | cons c cs =>
      rw [h] at ht
      simp only at ht
      have hlen : cs.length + 1 ≤ s.length := by
        have := dropWhile_len_le pyIsSpace s
        rw [h] at this
        simpa using this
      rcases List.mem_cons.mp ht with h1 | h2
      · subst h1
        refine ⟨by simp, ?_⟩
        intro x hx
        rcases List.mem_cons.mp hx with h3 | h4
        · subst h3
          exact dropWhile_head_false pyIsSpace s x cs h
        · have := List.mem_takeWhile_imp h4
          simpa using this
      · have hrest : (List.dropWhile (fun x => !(pyIsSpace x)) cs).length ≤ n := by
          have := dropWhile_len_le (fun x => !(pyIsSpace x)) cs
          omega
        exact ih (List.dropWhile (fun x => !(pyIsSpace x)) cs) hrest t h2

/-- `takeWhile` keeps everything when all elements satisfy the
predicate. -/
theorem takeWhile_all (p : Char → Bool) (l : List Char)
    (h : ∀ x ∈ l, p x = true) : List.takeWhile p l = l := by
  have := takeWhile_append_all p l [] h
  simpa using this

/-- `dropWhile` drops everything when all elements satisfy the
predicate. -/
theorem dropWhile_all (p : Char → Bool) (l : List Char)
    (h : ∀ x ∈ l, p x = true) : List.dropWhile p l = [] := by
  have := dropWhile_append_all p l [] h
  simpa [List.dropWhile] using this

/-- `split()` ignores a leading space. -/
theorem pySplitWs_cons_space (u : List Char) :
    pySplitWs (' ' :: u) = pySplitWs u := by
  rw [pySplitWs_eq, pySplitWs_eq (s := u)]
  have hstep : List.dropWhile pyIsSpace (' ' :: u) = List.dropWhile pyIsSpace u :=
    List.dropWhile_cons_of_pos (by simp [pyIsSpace])
  rw [hstep]

/-- `split()` of a `" ".join` of nonempty whitespace-free tokens
recovers exactly the tokens. -/
theorem pySplitWs_joinSp :
    ∀ ts : List (List Char),
      (∀ t ∈ ts, t ≠ [] ∧ ∀ c ∈ t, pyIsSpace c = false) →
      pySplitWs (joinSp ts) = ts := by
  intro ts
  induction ts with
  | nil => intro _; rfl
  | cons t ts ih =>
    intro h
    obtain ⟨hne, hc⟩ := h t (List.mem_cons_self t ts)
    cases t with
    | nil => exact absurd rfl hne
    | cons c tc =>
      have hcfalse : pyIsSpace c = false := hc c (List.mem_cons_self c tc)
      have htc : ∀ x ∈ tc, (fun x => !(pyIsSpace x)) x = true := by
        intro x hx
        simp [hc x (List.mem_cons_of_mem c hx)]
      cases ts with
      | nil =>
        show pySplitWs (c :: tc) = [c :: tc]
        rw [pySplitWs_eq,
          List.dropWhile_cons_of_neg (by simp [hcfalse])]
        simp only
        rw [takeWhile_all _ tc htc, dropWhile_all _ tc htc]
        rfl
      | cons t2 ts2 =>
        show pySplitWs ((c :: tc) ++ ' ' :: joinSp (t2 :: ts2)) = (c :: tc) :: t2 :: ts2
        rw [List.cons_append, pySplitWs_eq,
          List.dropWhile_cons_of_neg (by simp [hcfalse])]
        simp only
        rw [takeWhile_append_all _ tc (' ' :: joinSp (t2 :: ts2)) htc]
        rw [dropWhile_append_all _ tc (' ' :: joinSp (t2 :: ts2)) htc]
        have hsp : List.takeWhile (fun x => !(pyIsSpace x)) (' ' :: joinSp (t2 :: ts2)) = [] :=
          List.takeWhile_cons_of_neg (by simp [pyIsSpace])
        have hdp : List.dropWhile (fun x => !(pyIsSpace x)) (' ' :: joinSp (t2 :: ts2)) =
            ' ' :: joinSp (t2 :: ts2) :=
          List.dropWhile_cons_of_neg (by simp [pyIsSpace])
        rw [hsp, hdp, List.append_nil, pySplitWs_cons_space]
        rw [ih (fun x hx => h x (List.mem_cons_of_mem (c :: tc) hx))]

/-- Claim C9 (confirmed): the whitespace collapsing applied to
abstract text in `get_abstract` (collapsing every internal whitespace
run to a single space, via `" ".join(text.split())`) is idempotent:
applying it twice yields the same string as applying it once. -/
theorem C9_collapse_idempotent (s : List Char) :
    collapseWs (collapseWs s) = collapseWs s := by
  show joinSp (pySplitWs (joinSp (pySplitWs s))) = joinSp (pySplitWs s)
  rw [pySplitWs_joinSp (pySplitWs s) (pySplitWs_tokens s.length s (Nat.le_refl _))]

/-- The seed of a `foldl max` is below the result. -/
theorem le_foldl_max :
    ∀ (xs : List Int) (a : Int), a ≤ xs.foldl (fun p q => max p q) a := by
  intro xs
  induction xs with
  | nil => intro a; exact Int.le_refl a
  | cons b bs ih =>
    intro a
    exact Int.le_trans (Int.le_max_left a b) (ih (max a b))

/-- Every element of the list is below its `foldl max`. -/
theorem mem_le_foldl_max :
    ∀ (xs : List Int) (a y : Int), y ∈ xs → y ≤ xs.foldl (fun p q => max p q) a := by
  intro xs
  induction xs with
  | nil => intro a y hy; simp at hy
  | cons b bs ih =>
    intro a y hy
    rcases List.mem_cons.mp hy with h | h
    · subst h
      exact Int.le_trans (Int.le_max_right a y) (le_foldl_max bs (max a y))
    · exact ih (max a b) y h

/-- A `foldl max` lands on the seed or on a list element. -/
theorem foldl_max_mem :
    ∀ (xs : List Int) (a : Int), xs.foldl (fun p q => max p q) a ∈ a :: xs := by
  intro xs
  induction xs with
  | nil => intro a; simp
  | cons b bs ih =>
    intro a
    have h := ih (max a b)
    simp only [List.foldl_cons]
    rcases List.mem_cons.mp h with h1 | h1
    · rcases max_choice a b with h2 | h2
      · rw [h1, h2]
        exact List.mem_cons_self a (b :: bs)
      · rw [h1, h2]
        exact List.mem_cons_of_mem a (List.mem_cons_self b bs)
    · exact List.mem_cons_of_mem a (List.mem_cons_of_mem b h1)

/-- Claim C7 (confirmed): the Year Resolver returns the numeric
maximum over all list-item texts whose last whitespace-delimited token
(with surrounding parentheses stripped) parses as an integer, silently
skipping items that fail to parse, and returns the fixed fallback year
2023 when no item parses; on the texts NeurIPS (2023), garbage,
Workshop (1999) the result is 2023. -/
theorem C7_year_resolver :
    (∀ items : List (List Char),
      (∀ y ∈ items.filterMap parseYearItem, y ≤ get_latest_conference_year items) ∧
      (items.filterMap parseYearItem ≠ [] →
        get_latest_conference_year items ∈ items.filterMap parseYearItem) ∧
      (items.filterMap parseYearItem = [] →
        get_latest_conference_year items = 2023)) ∧
    get_latest_conference_year
      ["NeurIPS (2023)".toList, "garbage".toList, "Workshop (1999)".toList] = 2023 := by
  constructor
  · intro items
    cases h : items.filterMap parseYearItem with
    | nil =>
      refine ⟨?_, ?_, ?_⟩
      · intro y hy
        simp at hy
      · intro hne
        exact absurd rfl hne
      · intro _
        simp [get_latest_conference_year, h, pyMaxList]
    | cons x xs =>
      refine ⟨?_, ?_, ?_⟩
      · intro y hy
        simp only [get_latest_conference_year, h, pyMaxList]
        rcases List.mem_cons.mp hy with h1 | h1
        · subst h1
          exact le_foldl_max xs y
        · exact mem_le_foldl_max xs x y h1
      · intro _
        simp only [get_latest_conference_year, h, pyMaxList]
        exact foldl_max_mem xs x
      · intro hnil
        exact absurd hnil (by simp)
  · decide

/-- Claim C7 witness: on the example list the resolver value is indeed
one of the parsed years. -/
theorem C7_witness :
    get_latest_conference_year
        ["NeurIPS (2023)".toList, "garbage".toList, "Workshop (1999)".toList] ∈
      List.filterMap parseYearItem
        ["NeurIPS (2023)".toList, "garbage".toList, "Workshop (1999)".toList] :=
  (C7_year_resolver.1
    ["NeurIPS (2023)".toList, "garbage".toList, "Workshop (1999)".toList]).2.1
    (by decide)

/-- Claim C5 counterexample: on a failed fetch (status 404) the
abstract result is the empty string, not the empty mapping, so the
written file holds a JSON string rather than the claimed empty dict. -/
theorem C5_counterexample :
    get_abstract ⟨404, "T".toList, [], "a b".toList⟩ = PyVal.pyStr [] ∧
    PyVal.pyStr [] ≠ PyVal.pyDict [] := by
  refine ⟨rfl, ?_⟩
  intro hcontra
  exact PyVal.noConfusion hcontra

/-- Claim C5 (corrected): whenever the abstract-page fetch returns a
non-success (non-200) status, the abstract result is the empty string,
so the written abstract file contains a JSON string (first byte a
double quote, not an opening curly bracket); on HTTP 200 it is the
record with the citation title, the ordered citation authors, and the
whitespace-collapsed abstract text. -/
theorem C5_abstract_result (p : AbstractPage) :
    (p.status ≠ 200 →
      get_abstract p = PyVal.pyStr [] ∧
      jsonHeadChar (get_abstract p) = '"') ∧
    (p.status = 200 →
      get_abstract p =
        PyVal.pyDict
          [("title".toList, PyVal.pyStr p.citationTitle),
           ("authors".toList, PyVal.pyList (p.citationAuthors.map PyVal.pyStr)),
           ("abstract".toList, PyVal.pyStr (collapseWs p.abstractParagraph))]) := by
  constructor
  · intro h
    constructor
    · simp [get_abstract, h]
    · simp [get_abstract, h, jsonHeadChar]
  · intro h
    simp [get_abstract, h]

/-- Claim C5 witness: the failure half of the amended claim evaluated
at a concrete 404 page. -/
theorem C5_witness :
    get_abstract ⟨404, "T".toList, [], "a b".toList⟩ = PyVal.pyStr [] ∧
    jsonHeadChar (get_abstract ⟨404, "T".toList, [], "a b".toList⟩) = '"' :=
  (C5_abstract_result ⟨404, "T".toList, [], "a b".toList⟩).1 (by decide)

/-- Claim C6 counterexample: a 304 response is a fetch failure in the
claim wording (non-2xx status) yet `get_pdf` returns the body rather
than an absent result, because `raise_for_status` raises only for
4xx/5xx statuses. -/
theorem C6_counterexample :
    claimPdfFailure (PdfFetch.resp 304 []) = true ∧
    get_pdf (PdfFetch.resp 304 []) = some [] := by
  decide

/-- Claim C6 (corrected): for every PDF fetch failure in the sense of
the code (network error, or HTTP 4xx/5xx status raised by
`raise_for_status`), the PDF fetcher returns an absent result and the
run continues past the fetch; the subsequent archiver write of that
absent value as raw bytes is unguarded and raises instead of producing
byte output. -/
theorem C6_pdf_failure (f : PdfFetch) (h : pdfFetchFailed f = true) :
    get_pdf f = none ∧ pdfWrite (get_pdf f) = Except.error () := by
  cases f with
  | netError => exact ⟨rfl, rfl⟩
  | resp s c =>
    simp only [pdfFetchFailed] at h
    simp [get_pdf, h, pdfWrite]

/-- Claim C6 witness: the amended claim evaluated at a concrete 404
response. -/
theorem C6_witness :
    get_pdf (PdfFetch.resp 404 []) = none ∧
    pdfWrite (get_pdf (PdfFetch.resp 404 [])) = Except.error () :=
  C6_pdf_failure (PdfFetch.resp 404 []) (by decide)

/-- Claim C2 (code bug): the source defines `check_args`, which
rejects start_year 1986 and accepts the pair (1987, 1987), but `main`
never calls it; with an existing output directory the orchestrator
proceeds into the download loop for start_year 1986 (a nonempty write
list is produced) instead of terminating fatally before any
downloading work. -/
theorem C2_check_args_never_called :
    check_args 1986 2020 = true ∧
    check_args 1987 1987 = false ∧
    mainRun 1986 1986 "data".toList (fun _ => true) (fun _ => ["9999".toList]) =
      some (paperWrites 1986 "9999".toList) ∧
    paperWrites 1986 "9999".toList ≠ [] := by
  decide

/-- Claim C3 (code bug): the three artifact filenames match the claim,
but the directory root does not: `main` hardcodes the relative root
`../data` and never uses the `--output_dir` value when writing, so
with `--output_dir out` the artifacts of paper 1234 in year 2020 land
under `../data/2020/1234/` and not under `out/2020/1234/`. -/
theorem C3_output_dir_ignored :
    saveDir 2020 "1234".toList = "../data/2020/1234".toList ∧
    mainRun 2020 2020 "out".toList (fun _ => true) (fun _ => ["1234".toList]) =
      some ["../data/2020/1234/1234_abstract.json".toList,
            "../data/2020/1234/1234_metadata.json".toList,
            "../data/2020/1234/1234.pdf".toList] ∧
    List.isPrefixOf "out/".toList "../data/2020/1234/1234_abstract.json".toList = false := by
  decide

/-- Claim C4 (confirmed): thanks to the unconditional break at the end
of the inner loop, every year of the run archives exactly the first
paper discovered on that listing page: the writes of the whole run are,
year by year, the writes of the first element (`take 1`) of the
listing, after which the loop advances to the next year. -/
theorem C4_first_paper_only (listing : Int → List (List Char)) (s e : Int)
    (d : List Char) (ex : List Char → Bool) (hex : ex d = true) :
    mainRun s e d ex listing =
      some ((yearRange s e).flatMap
        (fun y => ((listing y).take 1).flatMap (paperWrites y))) := by
  have hy : ∀ y, processYear y (listing y) =
      ((listing y).take 1).flatMap (paperWrites y) := by
    intro y
    cases hl : listing y with
    | nil => rfl
    | cons p rest => simp [processYear]
  simp [mainRun, hex, hy]

/-- Claim C4 witness: the theorem evaluated on a run whose listing
offers two papers per year; only the first produces writes. -/
theorem C4_witness :
    mainRun 2020 2020 "data".toList (fun _ => true)
        (fun _ => ["aaaa".toList, "bbbb".toList]) =
      some ((yearRange 2020 2020).flatMap
        (fun y => (((fun _ : Int => ["aaaa".toList, "bbbb".toList]) y).take 1).flatMap
          (paperWrites y))) :=
  C4_first_paper_only (fun _ => ["aaaa".toList, "bbbb".toList]) 2020 2020
    "data".toList (fun _ => true) rfl

/-- Characters are absent from a digit string unless they are
digits. -/
theorem digit_not_mem (y : List Char) (hy : ∀ c ∈ y, isDigitC c = true)
    (c : Char) (hc : isDigitC c = false) : c ∉ y := by
  intro h
  rw [hy c h] at hc
  exact Bool.noConfusion hc

/-- Characters are absent from a lowercase-hex string unless they are
lowercase-hex digits. -/
theorem hex_not_mem (id : List Char) (hid : ∀ c ∈ id, isHexLower c = true)
    (c : Char) (hc : isHexLower c = false) : c ∉ id := by
  intro h
  rw [hid c h] at hc
  exact Bool.noConfusion hc

/-- Absence from both halves gives absence from an append. -/
theorem not_mem_append (c : Char) (a b : List Char) (ha : c ∉ a) (hb : c ∉ b) :
    c ∉ a ++ b := by
  intro h
  rcases List.mem_append.mp h with h | h
  · exact ha h
  · exact hb h

/-- `str.replace` of exactly the whole pattern. -/
theorem pyReplace_self (old new : List Char) (hne : old ≠ []) :
    pyReplace old new old = new := by
  have h := pyReplace_match old new [] hne
  have hnil : pyReplace old new [] = [] := rfl
  rw [List.append_nil, hnil, List.append_nil] at h
  exact h

/-- Substituting the token Abstract over a well-formed paper base
path: the single occurrence sits at the very end, because no earlier
character of the path is a capital A. -/
theorem replace_abstract (y id new : List Char)
    (hy : ∀ c ∈ y, isDigitC c = true) (hid : ∀ c ∈ id, isHexLower c = true) :
    pyReplace "Abstract".toList new
      (base_url ++ "/paper/".toList ++ y ++ "/hash/".toList ++ id ++ "-Abstract".toList) =
      base_url ++ "/paper/".toList ++ y ++ "/hash/".toList ++ id ++ ('-' :: new) := by
  have harg : base_url ++ "/paper/".toList ++ y ++ "/hash/".toList ++ id ++ "-Abstract".toList =
      (((((base_url ++ "/paper/".toList) ++ y) ++ "/hash/".toList) ++ id) ++ ['-']) ++
        "Abstract".toList := by
    simp only [List.append_assoc]
    rfl
  have hA : 'A' ∉ ((((base_url ++ "/paper/".toList) ++ y) ++ "/hash/".toList) ++ id) ++ ['-'] :=
    not_mem_append 'A' _ ['-']
      (not_mem_append 'A' _ id
        (not_mem_append 'A' _ "/hash/".toList
          (not_mem_append 'A' _ y
            (not_mem_append 'A' base_url "/paper/".toList (by decide) (by decide))
            (digit_not_mem y hy 'A' (by decide)))
          (by decide))
        (hex_not_mem id hid 'A' (by decide)))
      (by decide)
  rw [harg]
  have step : pyReplace "Abstract".toList new
      (((((((base_url ++ "/paper/".toList) ++ y) ++ "/hash/".toList) ++ id) ++ ['-'])) ++
        "Abstract".toList) =
      ((((((base_url ++ "/paper/".toList) ++ y) ++ "/hash/".toList) ++ id) ++ ['-'])) ++
        pyReplace "Abstract".toList new "Abstract".toList :=
    pyReplace_append_left 'A' "bstract".toList new _ "Abstract".toList hA
  rw [step, pyReplace_self "Abstract".toList new (by decide)]
  simp only [List.append_assoc]
  rfl

/-- The token hash does not begin at an h that is followed by anything
other than an a. -/
theorem isPrefixOf_hash_mismatch (c2 : Char) (rest : List Char)
    (h2 : ('a' == c2) = false) :
    List.isPrefixOf "hash".toList ('h' :: c2 :: rest) = false := by
  change List.isPrefixOf ('h' :: 'a' :: 's' :: 'h' :: []) ('h' :: c2 :: rest) = false
  rw [isPrefixOf_cons₂, isPrefixOf_cons₂, h2]
  simp

/-- Substituting the token hash over a well-formed path: the h of the
leading https never begins a match, the year and id segments contain
no h at all, and the single real occurrence is the hash directory
segment. -/
theorem replace_hash (y id tail : List Char)
    (hy : ∀ c ∈ y, isDigitC c = true) (hid : ∀ c ∈ id, isHexLower c = true)
    (htail : 'h' ∉ tail) :
    pyReplace "hash".toList "file".toList
      (base_url ++ "/paper/".toList ++ y ++ "/hash/".toList ++ id ++ tail) =
      base_url ++ "/paper/".toList ++ y ++ "/file/".toList ++ id ++ tail := by
  have harg : base_url ++ "/paper/".toList ++ y ++ "/hash/".toList ++ id ++ tail =
      'h' :: ((("ttps://papers.nips.cc/paper/".toList ++ y) ++ ['/']) ++
        ("hash".toList ++ (('/' :: id) ++ tail))) := by
    simp only [base_url, List.append_assoc]
    rfl
  rw [harg]
  have hform : ((("ttps://papers.nips.cc/paper/".toList ++ y) ++ ['/']) ++
      ("hash".toList ++ (('/' :: id) ++ tail))) =
      't' :: ((("tps://papers.nips.cc/paper/".toList ++ y) ++ ['/']) ++
        ("hash".toList ++ (('/' :: id) ++ tail))) := by
    simp only [List.append_assoc]
    rfl
  have hpre : List.isPrefixOf "hash".toList
      ('h' :: ((("ttps://papers.nips.cc/paper/".toList ++ y) ++ ['/']) ++
        ("hash".toList ++ (('/' :: id) ++ tail)))) = false := by
    rw [hform]
    exact isPrefixOf_hash_mismatch 't' _ (by decide)
  rw [pyReplace_cons_not_pre _ _ _ _ hpre]
  have hnoh : 'h' ∉ ("ttps://papers.nips.cc/paper/".toList ++ y) ++ ['/'] :=
    not_mem_append 'h' _ ['/']
      (not_mem_append 'h' _ y (by decide) (digit_not_mem y hy 'h' (by decide)))
      (by decide)
  have step2 : pyReplace "hash".toList "file".toList
      ((("ttps://papers.nips.cc/paper/".toList ++ y) ++ ['/']) ++
        ("hash".toList ++ (('/' :: id) ++ tail))) =
      (("ttps://papers.nips.cc/paper/".toList ++ y) ++ ['/']) ++
        pyReplace "hash".toList "file".toList
          ("hash".toList ++ (('/' :: id) ++ tail)) :=
    pyReplace_append_left 'h' "ash".toList "file".toList _ _ hnoh
  rw [step2]
  have step3 : pyReplace "hash".toList "file".toList
      ("hash".toList ++ (('/' :: id) ++ tail)) =
      "file".toList ++ pyReplace "hash".toList "file".toList (('/' :: id) ++ tail) :=
    pyReplace_match "hash".toList "file".toList _ (by decide)
  rw [step3]
  have hnoh2 : 'h' ∉ ('/' :: id) ++ tail :=
    not_mem_append 'h' ('/' :: id) tail
      (by
        intro hmem
        rcases List.mem_cons.mp hmem with h | h
        · exact absurd h (by decide)
        · exact hex_not_mem id hid 'h' (by decide) h)
      htail
  have step4 : pyReplace "hash".toList "file".toList (('/' :: id) ++ tail) =
      ('/' :: id) ++ tail :=
    pyReplace_no_head 'h' "ash".toList "file".toList _ hnoh2
  rw [step4]
  simp only [base_url, List.append_assoc]
  rfl

/-- The extension stripping of the Link Deriver on a well-formed
href. -/
theorem derive_paperBase (y id : List Char) :
    rsplitBeforeLast '.' (wellFormedHref y id) =
      "/paper/".toList ++ y ++ "/hash/".toList ++ id ++ "-Abstract".toList := by
  have harg : wellFormedHref y id =
      (((("/paper/".toList ++ y) ++ "/hash/".toList) ++ id) ++ "-Abstract".toList) ++
        '.' :: "html".toList := by
    simp only [wellFormedHref, List.append_assoc]
    rfl
  rw [harg, rsplitBeforeLast_append '.' _ "html".toList (by decide)]

/-- The Link Deriver extracts the hash id of a well-formed href as the
paper identifier. -/
theorem derive_paper_id (y id : List Char)
    (_hy : ∀ c ∈ y, isDigitC c = true) (hid : ∀ c ∈ id, isHexLower c = true) :
    (derivePaper (wellFormedHref y id)).paper_id = id := by
  show List.headD (splitChar '-'
    (List.getLastD (splitChar '/' (wellFormedHref y id)) [])) [] = id
  have hd : wellFormedHref y id =
      (("/paper/".toList ++ y) ++ "/hash".toList) ++
        '/' :: (id ++ "-Abstract.html".toList) := by
    simp only [wellFormedHref, List.append_assoc]
    rfl
  have hv : '/' ∉ id ++ "-Abstract.html".toList :=
    not_mem_append '/' id _ (hex_not_mem id hid '/' (by decide)) (by decide)
  rw [hd, List.getLastD_eq_getLast?, splitChar_getLast?_append,
    splitChar_no_sep '/' _ hv]
  show List.headD (splitChar '-' (id ++ "-Abstract.html".toList)) [] = id
  have hv2 : id ++ "-Abstract.html".toList = id ++ '-' :: "Abstract.html".toList := rfl
  rw [hv2]
  exact splitChar_headD_append '-' id _ (hex_not_mem id hid '-' (by decide))

/-- The abstract URL of a well-formed href is the base endpoint plus
the href, verbatim. -/
theorem derive_abstract_url (y id : List Char) :
    (derivePaper (wellFormedHref y id)).abstract_url =
      base_url ++ wellFormedHref y id :=
  rfl

/-- The metadata URL derived from a well-formed href. -/
theorem derive_metadata (y id : List Char)
    (hy : ∀ c ∈ y, isDigitC c = true) (hid : ∀ c ∈ id, isHexLower c = true) :
    (derivePaper (wellFormedHref y id)).metadata_url =
      base_url ++ "/paper/".toList ++ y ++ "/file/".toList ++ id ++
        "-Metadata.json".toList := by
  show pyReplace "hash".toList "file".toList
      (pyReplace "Abstract".toList "Metadata".toList
        (base_url ++ rsplitBeforeLast '.' (wellFormedHref y id))) ++ ".json".toList = _
  rw [derive_paperBase y id]
  have h1 : base_url ++
      ("/paper/".toList ++ y ++ "/hash/".toList ++ id ++ "-Abstract".toList) =
      base_url ++ "/paper/".toList ++ y ++ "/hash/".toList ++ id ++ "-Abstract".toList := by
    simp only [List.append_assoc]
  rw [h1, replace_abstract y id "Metadata".toList hy hid,
    replace_hash y id ('-' :: "Metadata".toList) hy hid (by decide)]
  simp only [List.append_assoc]
  rfl

/-- The PDF URL derived from a well-formed href. -/
theorem derive_pdf (y id : List Char)
    (hy : ∀ c ∈ y, isDigitC c = true) (hid : ∀ c ∈ id, isHexLower c = true) :
    (derivePaper (wellFormedHref y id)).pdf_url =
      base_url ++ "/paper/".toList ++ y ++ "/file/".toList ++ id ++
        "-Paper.pdf".toList := by
  show pyReplace "hash".toList "file".toList
      (pyReplace "Abstract".toList "Paper".toList
        (base_url ++ rsplitBeforeLast '.' (wellFormedHref y id))) ++ ".pdf".toList = _
  rw [derive_paperBase y id]
  have h1 : base_url ++
      ("/paper/".toList ++ y ++ "/hash/".toList ++ id ++ "-Abstract".toList) =
      base_url ++ "/paper/".toList ++ y ++ "/hash/".toList ++ id ++ "-Abstract".toList := by
    simp only [List.append_assoc]
  rw [h1, replace_abstract y id "Paper".toList hy hid,
    replace_hash y id ('-' :: "Paper".toList) hy hid (by decide)]
  simp only [List.append_assoc]
  rfl

/-- Claim C1 counterexample: on an anchor href literally of the form
`.../Abstract-hash-<id>.html` (here with id 1234), the last
path segment truncated at its first dash is the word Abstract, so the
derived paper identifier is not the id, contradicting the claim. -/
theorem C1_counterexample :
    (derivePaper ("/paper/2020/Abstract-hash-".toList ++ "1234".toList ++
      ".html".toList)).paper_id ≠ "1234".toList := by
  decide

/-- Claim C1 (corrected): for every anchor href of the site shape
`/paper/<year>/hash/<id>-Abstract.html` (digit year, lowercase-hex
id) the Link Deriver produces paper_id equal to the id (the last
slash-delimited segment truncated at the first dash), a metadata_url
that contains the substrings Metadata and file and ends in .json, and
a pdf_url that contains the substrings Paper and file and ends in
.pdf. -/
theorem C1_link_deriver (y id : List Char)
    (hy : ∀ c ∈ y, isDigitC c = true) (hid : ∀ c ∈ id, isHexLower c = true) :
    (derivePaper (wellFormedHref y id)).paper_id = id ∧
    containsSub "Metadata".toList (derivePaper (wellFormedHref y id)).metadata_url = true ∧
    containsSub "file".toList (derivePaper (wellFormedHref y id)).metadata_url = true ∧
    endsWithL (derivePaper (wellFormedHref y id)).metadata_url ".json".toList = true ∧
    containsSub "Paper".toList (derivePaper (wellFormedHref y id)).pdf_url = true ∧
    containsSub "file".toList (derivePaper (wellFormedHref y id)).pdf_url = true ∧
    endsWithL (derivePaper (wellFormedHref y id)).pdf_url ".pdf".toList = true := by
  have hm := derive_metadata y id hy hid
  have hp := derive_pdf y id hy hid
  refine ⟨derive_paper_id y id hy hid, ?_, ?_, ?_, ?_, ?_, ?_⟩
  · rw [hm]
    have hshape : base_url ++ "/paper/".toList ++ y ++ "/file/".toList ++ id ++
        "-Metadata.json".toList =
        (base_url ++ "/paper/".toList ++ y ++ "/file/".toList ++ id ++ ['-']) ++
          ("Metadata".toList ++ ".json".toList) := by
      simp only [List.append_assoc]
      rfl
    rw [hshape]
    exact containsSub_append "Metadata".toList _ _
  · rw [hm]
    have hshape : base_url ++ "/paper/".toList ++ y ++ "/file/".toList ++ id ++
        "-Metadata.json".toList =
        (base_url ++ "/paper/".toList ++ y ++ ['/']) ++
          ("file".toList ++ (('/' :: id) ++ "-Metadata.json".toList)) := by
      simp only [List.append_assoc]
      rfl
    rw [hshape]
    exact containsSub_append "file".toList _ _
  · rw [hm]
    have hshape : base_url ++ "/paper/".toList ++ y ++ "/file/".toList ++ id ++
        "-Metadata.json".toList =
        (base_url ++ "/paper/".toList ++ y ++ "/file/".toList ++ id ++
          "-Metadata".toList) ++ ".json".toList := by
      simp only [List.append_assoc]
      rfl
    rw [hshape]
    exact endsWithL_append _ ".json".toList
  · rw [hp]
    have hshape : base_url ++ "/paper/".toList ++ y ++ "/file/".toList ++ id ++
        "-Paper.pdf".toList =
        (base_url ++ "/paper/".toList ++ y ++ "/file/".toList ++ id ++ ['-']) ++
          ("Paper".toList ++ ".pdf".toList) := by
      simp only [List.append_assoc]
      rfl
    rw [hshape]
    exact containsSub_append "Paper".toList _ _
  · rw [hp]
    have hshape : base_url ++ "/paper/".toList ++ y ++ "/file/".toList ++ id ++
        "-Paper.pdf".toList =
        (base_url ++ "/paper/".toList ++ y ++ ['/']) ++
          ("file".toList ++ (('/' :: id) ++ "-Paper.pdf".toList)) := by
      simp only [List.append_assoc]
      rfl
    rw [hshape]
    exact containsSub_append "file".toList _ _
  · rw [hp]
    have hshape : base_url ++ "/paper/".toList ++ y ++ "/file/".toList ++ id ++
        "-Paper.pdf".toList =
        (base_url ++ "/paper/".toList ++ y ++ "/file/".toList ++ id ++
          "-Paper".toList) ++ ".pdf".toList := by
      simp only [List.append_assoc]
      rfl
    rw [hshape]
    exact endsWithL_append _ ".pdf".toList

/-- Claim C1 witness: the amended claim at the concrete href
`/paper/2020/hash/abc123-Abstract.html`. -/
theorem C1_witness :
    (derivePaper (wellFormedHref "2020".toList "abc123".toList)).paper_id =
      "abc123".toList ∧
    containsSub "Metadata".toList
      (derivePaper (wellFormedHref "2020".toList "abc123".toList)).metadata_url = true ∧
    containsSub "file".toList
      (derivePaper (wellFormedHref "2020".toList "abc123".toList)).metadata_url = true ∧
    endsWithL (derivePaper (wellFormedHref "2020".toList "abc123".toList)).metadata_url
      ".json".toList = true ∧
    containsSub "Paper".toList
      (derivePaper (wellFormedHref "2020".toList "abc123".toList)).pdf_url = true ∧
    containsSub "file".toList
      (derivePaper (wellFormedHref "2020".toList "abc123".toList)).pdf_url = true ∧
    endsWithL (derivePaper (wellFormedHref "2020".toList "abc123".toList)).pdf_url
      ".pdf".toList = true :=
  C1_link_deriver "2020".toList "abc123".toList (by decide) (by decide)

/-- Any common Boolean prefix of two strings is a prefix of their
longest common prefix, so a substring missing from `commonPrefix a b`
is missing from every shared prefix of `a` and `b`. -/
theorem isPrefixOf_commonPrefix (p : List Char) :
    ∀ a b : List Char, List.isPrefixOf p a = true → List.isPrefixOf p b = true →
      List.isPrefixOf p (commonPrefix a b) = true := by
  induction p with
  | nil => intro a b _ _; simp [List.isPrefixOf]
  | cons x xs ih =>
    intro a b ha hb
    cases a with
    | nil => simp [List.isPrefixOf] at ha
    | cons a1 as =>
      cases b with
      | nil => simp [List.isPrefixOf] at hb
      | cons b1 bs =>
        rw [isPrefixOf_cons₂] at ha hb
        obtain ⟨hxa, has⟩ := Bool.and_eq_true_iff.mp ha
        obtain ⟨hxb, hbs⟩ := Bool.and_eq_true_iff.mp hb
        have hab : a1 = b1 := by
          have h1 : x = a1 := eq_of_beq hxa
          have h2 : x = b1 := eq_of_beq hxb
          rw [← h1, h2]
        simp only [commonPrefix, if_pos hab]
        rw [isPrefixOf_cons₂, hxa]
        simpa using ih as bs has hbs

/-- Claim C8 counterexample: at the well-formed href
`/paper/2020/hash/abc-Abstract.html` the paper identifier is abc, yet
the longest common prefix of the abstract URL and the metadata URL
does not contain it (the hash to file substitution diverges the two
URLs one segment before the identifier), so the three derived URLs do
not all share an identifier-bearing prefix. -/
theorem C8_counterexample :
    (derivePaper "/paper/2020/hash/abc-Abstract.html".toList).paper_id = "abc".toList ∧
    containsSub "abc".toList
      (commonPrefix
        (derivePaper "/paper/2020/hash/abc-Abstract.html".toList).abstract_url
        (derivePaper "/paper/2020/hash/abc-Abstract.html".toList).metadata_url) = false := by
  decide

/-- Claim C8 (corrected): for every well-formed anchor href
`/paper/<year>/hash/<id>-Abstract.html` (digit year, lowercase-hex id)
the three derived URLs are syntactically determined from that href and
each contains the identifier, and the metadata and PDF URLs share an
identifier-bearing common prefix; the abstract URL, however, diverges
from the other two before the identifier (at the hash versus file
segment), so all three do not share an identifier-bearing prefix. -/
theorem C8_url_derivation (y id : List Char)
    (hy : ∀ c ∈ y, isDigitC c = true) (hid : ∀ c ∈ id, isHexLower c = true) :
    containsSub id (derivePaper (wellFormedHref y id)).abstract_url = true ∧
    containsSub id (derivePaper (wellFormedHref y id)).metadata_url = true ∧
    containsSub id (derivePaper (wellFormedHref y id)).pdf_url = true ∧
    containsSub id
      (commonPrefix (derivePaper (wellFormedHref y id)).metadata_url
        (derivePaper (wellFormedHref y id)).pdf_url) = true := by
  have hm := derive_metadata y id hy hid
  have hp := derive_pdf y id hy hid
  refine ⟨?_, ?_, ?_, ?_⟩
  · rw [derive_abstract_url]
    have hshape : base_url ++ wellFormedHref y id =
        (base_url ++ "/paper/".toList ++ y ++ "/hash/".toList) ++
          (id ++ "-Abstract.html".toList) := by
      simp only [wellFormedHref, List.append_assoc]
    rw [hshape]
    exact containsSub_append id _ _
  · rw [hm]
    have hshape : base_url ++ "/paper/".toList ++ y ++ "/file/".toList ++ id ++
        "-Metadata.json".toList =
        (base_url ++ "/paper/".toList ++ y ++ "/file/".toList) ++
          (id ++ "-Metadata.json".toList) := by
      simp only [List.append_assoc]
    rw [hshape]
    exact containsSub_append id _ _
  · rw [hp]
    have hshape : base_url ++ "/paper/".toList ++ y ++ "/file/".toList ++ id ++
        "-Paper.pdf".toList =
        (base_url ++ "/paper/".toList ++ y ++ "/file/".toList) ++
          (id ++ "-Paper.pdf".toList) := by
      simp only [List.append_assoc]
    rw [hshape]
    exact containsSub_append id _ _
  · rw [hm, hp]
    have hm2 : base_url ++ "/paper/".toList ++ y ++ "/file/".toList ++ id ++
        "-Metadata.json".toList =
        (base_url ++ "/paper/".toList ++ y ++ "/file/".toList) ++
          (id ++ "-Metadata.json".toList) := by
      simp only [List.append_assoc]
    have hp2 : base_url ++ "/paper/".toList ++ y ++ "/file/".toList ++ id ++
        "-Paper.pdf".toList =
        (base_url ++ "/paper/".toList ++ y ++ "/file/".toList) ++
          (id ++ "-Paper.pdf".toList) := by
      simp only [List.append_assoc]
    rw [hm2, hp2, commonPrefix_append]
    have hm3 : id ++ "-Metadata.json".toList = (id ++ ['-']) ++ "Metadata.json".toList := by
      simp only [List.append_assoc]
      rfl
    have hp3 : id ++ "-Paper.pdf".toList = (id ++ ['-']) ++ "Paper.pdf".toList := by
      simp only [List.append_assoc]
      rfl
    rw [hm3, hp3, commonPrefix_append]
    have hz : commonPrefix "Metadata.json".toList "Paper.pdf".toList = [] := by decide
    rw [hz, List.append_nil]
    exact containsSub_append id _ _

/-- Claim C8 witness: the amended claim at the concrete href
`/paper/2020/hash/abc123-Abstract.html`. -/
theorem C8_witness :
    containsSub "abc123".toList
      (derivePaper (wellFormedHref "2020".toList "abc123".toList)).abstract_url = true ∧
    containsSub "abc123".toList
      (derivePaper (wellFormedHref "2020".toList "abc123".toList)).metadata_url = true ∧
    containsSub "abc123".toList
      (derivePaper (wellFormedHref "2020".toList "abc123".toList)).pdf_url = true ∧
    containsSub "abc123".toList
      (commonPrefix (derivePaper (wellFormedHref "2020".toList "abc123".toList)).metadata_url
        (derivePaper (wellFormedHref "2020".toList "abc123".toList)).pdf_url) = true :=
  C8_url_derivation "2020".toList "abc123".toList (by decide) (by decide)

/-- Claim C10 (confirmed): the token substitution deriving the
metadata and PDF URLs is Python string replace over the whole
extension-stripped URL (base endpoint plus full href path), not just
its last segment: at an href carrying Abstract as a directory segment
and hash inside the identifier, every such occurrence is substituted
in both derived URLs (the embedding composes the two replaces in the
source order, Abstract first, then hash). -/
theorem C10_global_substitution :
    (derivePaper "/Abstract/2020/hash/aahashbb-Abstract.html".toList).metadata_url =
      "https://papers.nips.cc/Metadata/2020/file/aafilebb-Metadata.json".toList ∧
    (derivePaper "/Abstract/2020/hash/aahashbb-Abstract.html".toList).pdf_url =
      "https://papers.nips.cc/Paper/2020/file/aafilebb-Paper.pdf".toList := by
  decide
